import Mathlib

/-!
Verification of the natural-language specification of
src/fix_expression_references.py against a shallow embedding of its code.

The script applies, in a fixed order, a list of Python re.sub substitutions
to the text of a file (function fix_expression_references, lines 43-189),
wraps that in a per-file read/compare/write step (process_file, lines
191-213), and drives it over a fixed path list (main, lines 215-235).

Embedding choices:
  * file text is modelled as List Char (Python str is a sequence of code
    points); a String wrapper is provided for readable concrete statements;
  * each re.sub pattern in the source is a literal string plus at most one
    interior regex class repetition (the sequence \s* ) and at most one
    trailing word-boundary assertion \b ; patterns are therefore embedded
    as lists of tokens: literal character, whitespace-star, trailing
    word boundary;
  * the character classes \w and \s are modelled on their ASCII fragment
    (the files the script targets are ASCII Rust sources);
  * every occurrence of \s* in the source patterns is immediately followed
    by the literal 'E', which is not a whitespace character, so Python's
    greedy backtracking \s* is equivalent to a deterministic maximal
    munch, which is how the token is embedded;
  * every \b in the source patterns follows the word character 'n' or a
    letter of a variant name, so the assertion holds exactly when the next
    character is absent or is not a word character;
  * re.sub scans left to right, replaces each non-overlapping leftmost
    match and resumes immediately after the replaced segment; subF below
    implements exactly that scan (with a fuel argument that makes the
    definition structural; fuel never runs out because every source
    pattern begins with a literal and hence consumes at least one
    character per match);
  * file-system reads and writes, and the exceptions they can raise, are
    modelled as explicit outcome values fed to process_file; the except
    branch of the source becomes the explicit error cases.
-/

set_option maxRecDepth 100000

namespace FixExpr

/-- ASCII fragment of the Python regex class \w (word character). -/
def isWordChar (c : Char) : Bool := c.isAlphanum || c == '_'

/-- ASCII fragment of the Python regex class \s (whitespace). -/
def isSpaceChar (c : Char) : Bool :=
  c == ' ' || c == '\t' || c == '\n' || c == '\r' || c == '\x0b' || c == '\x0c'

/-- Pattern tokens: a literal character, the repetition \s* , and the
word-boundary assertion \b as it occurs in the source (always directly
after a word character, so it only constrains the following character). -/
inductive RTok where
  | lit (c : Char)
  | ws
  | wb
deriving DecidableEq, Repr

/-- Word-boundary test for a \b that follows a word character: the
remaining input is empty or starts with a non-word character. -/
def boundaryAt (s : List Char) : Bool :=
  match s with
  | [] => true
  | c :: _ => !(isWordChar c)

/-- Match a pattern at the head of the input; on success return the input
remaining after the matched segment. -/
def matchPat : List RTok → List Char → Option (List Char)
  | [], s => some s
  | RTok.lit _ :: _, [] => none
  | RTok.lit c :: p, a :: s => if a = c then matchPat p s else none
  | RTok.ws :: p, s => matchPat p (s.dropWhile isSpaceChar)
  | RTok.wb :: p, s => if boundaryAt s then matchPat p s else none

/-- One re.sub pass: scan left to right, replace each leftmost match by
rep and resume after it.  The fuel argument makes the recursion
structural; subF is only ever called with fuel at least the length of the
input, which suffices because every pattern of the source starts with a
literal token and so consumes at least one character. -/
def subF (p : List RTok) (rep : List Char) : Nat → List Char → List Char
  | _, [] => []
  | 0, s => s
  | fuel + 1, a :: s =>
    match matchPat p (a :: s) with
    | some rest => rep ++ subF p rep fuel rest
    | none => a :: subF p rep fuel s

/-- re.sub of one rule over a whole text. -/
def subst (p : List RTok) (rep : List Char) (s : List Char) : List Char :=
  subF p rep s.length s

/-- One (pattern, replacement) rule of the script. -/
structure Rule where
  pat : List RTok
  rep : List Char
deriving DecidableEq, Repr

/-- Literal part of a pattern. -/
def L (s : String) : List RTok := s.data.map RTok.lit

/-- The fifteen variant names of step 3 of the source, in source order. -/
def VARIANTS : List String :=
  ["Literal", "Variable", "Property", "Binary", "Unary", "Function",
   "Aggregate", "List", "Map", "Case", "TypeCast", "Subscript", "Range",
   "Path", "Label"]

/-- Rule for one qualified variant constructor:
re.sub(r'Expression::V\b', 'Expr::V', content). -/
def variantRule (v : String) : Rule :=
  ⟨L ("Expression::" ++ v) ++ [RTok.wb], ("Expr::" ++ v).data⟩

/-- Source step 1a: re.sub(r'use crate::expression::Expression\b', ...). -/
def rUse1 : Rule :=
  ⟨L "use crate::expression::Expression" ++ [RTok.wb],
   ("use crate::expression::Expr").data⟩

/-- Source step 1b: re.sub(r'use crate::core::types::expression::Expression\b', ...). -/
def rUse2 : Rule :=
  ⟨L "use crate::core::types::expression::Expression" ++ [RTok.wb],
   ("use crate::core::types::expression::Expr").data⟩

/-- Source step 2: re.sub(r'&Expression\b', '&Expr', ...). -/
def rAmp : Rule := ⟨L "&Expression" ++ [RTok.wb], ("&Expr").data⟩

/-- Source step 4: re.sub(r'Vec<Expression>', 'Vec<Expr>', ...). -/
def rVec : Rule := ⟨L "Vec<Expression>", ("Vec<Expr>").data⟩

/-- Source step 5: re.sub(r'Box<Expression>', 'Box<Expr>', ...). -/
def rBox : Rule := ⟨L "Box<Expression>", ("Box<Expr>").data⟩

/-- Source step 6: re.sub(r'Option<Box<Expression>>', ...). -/
def rOptBox : Rule :=
  ⟨L "Option<Box<Expression>>", ("Option<Box<Expr>>").data⟩

/-- Source step 7: re.sub(r'\(Expression,\s*Expression\)', '(Expr, Expr)', ...). -/
def rTuple : Rule :=
  ⟨L "(Expression," ++ [RTok.ws] ++ L "Expression)", ("(Expr, Expr)").data⟩

/-- Source step 8: re.sub(r'&\[\(Expression,\s*Expression\)\]', ...). -/
def rSliceTuple : Rule :=
  ⟨L "&[(Expression," ++ [RTok.ws] ++ L "Expression)]",
   ("&[(Expr, Expr)]").data⟩

/-- Source step 9: re.sub(r'&\[String,\s*Expression\]', '&[(String, Expr)]', ...).
Note the pattern has no parentheses while the replacement inserts them. -/
def rSliceString : Rule :=
  ⟨L "&[String," ++ [RTok.ws] ++ L "Expression]",
   ("&[(String, Expr)]").data⟩

/-- The ordered rule list of fix_expression_references (source lines
48-187): the two import rules, the &Expression rule, the fifteen variant
rules, then the container and tuple rules.  Patterns and replacements are
transcribed from the re.sub calls. -/
def rules : List Rule :=
  [rUse1, rUse2, rAmp]
  ++ VARIANTS.map variantRule
  ++ [rVec, rBox, rOptBox, rTuple, rSliceTuple, rSliceString]

/-- The transform of the script: the 24 substitutions applied in source
order to the full text. -/
def fix_expression_references (s : List Char) : List Char :=
  rules.foldl (fun t r => subst r.pat r.rep t) s

/-- String wrapper of the transform, for readable concrete statements. -/
def fixString (s : String) : String := ⟨fix_expression_references s.data⟩

/-! ## File walker model

process_file (source lines 191-213) takes a path, checks existence, reads
the file, transforms, writes back only when the content changed, and
returns True exactly when it wrote.  Exceptions raised by the read or the
write are caught by the try/except of the source, which prints the error
and returns False.  The file system interaction is modelled by an explicit
access outcome per path: the file is missing, the read raises, or the read
yields content (with a flag telling whether a write would succeed). -/

/-- What the file system does for one path: the os.path.exists check
fails, the open/read raises, or the read returns content; writeOk tells
whether a write to this path would succeed or raise. -/
inductive FileAccess where
  | missing
  | readFails
  | ok (content : List Char) (writeOk : Bool)

/-- Per-file outcome as printed by process_file: the skip branch, the
fixed branch, the no-change branch, or the except branch. -/
inductive Outcome where
  | missing
  | modified
  | unchanged
  | ioError
deriving DecidableEq, Repr

/-- Result of one process_file call: the returned Bool, the printed
status, and the content written back (none when no write happened). -/
structure FileResult where
  fixedFlag : Bool
  outcome : Outcome
  written : Option (List Char)
deriving DecidableEq, Repr

/-- Shallow embedding of process_file (source lines 191-213): the missing
check returns False; otherwise read, transform, compare; write and return
True only when the transformed content differs; read or write exceptions
are caught and yield False. -/
def process_file : FileAccess → FileResult
  | FileAccess.missing => ⟨false, Outcome.missing, none⟩
  | FileAccess.readFails => ⟨false, Outcome.ioError, none⟩
  | FileAccess.ok c w =>
    let c' := fix_expression_references c
    if c' = c then ⟨false, Outcome.unchanged, none⟩
    else if w then ⟨true, Outcome.modified, some c'⟩
    else ⟨false, Outcome.ioError, none⟩

/-- The fixed path list FILES_TO_FIX of the source (lines 18-41). -/
def FILES_TO_FIX : List String :=
  ["src/query/visitor/variable_visitor.rs",
   "src/query/visitor/find_visitor.rs",
   "src/query/visitor/extract_filter_expr_visitor.rs",
   "src/query/visitor/evaluable_expr_visitor.rs",
   "src/query/visitor/deduce_props_visitor.rs",
   "src/query/visitor/deduce_type_visitor.rs",
   "src/query/visitor/extract_prop_expr_visitor.rs",
   "src/query/visitor/extract_group_suite_visitor.rs",
   "src/query/visitor/rewrite_visitor.rs",
   "src/query/visitor/fold_constant_expr_visitor.rs",
   "src/query/visitor/deduce_alias_type_visitor.rs",
   "src/query/visitor/validate_pattern_expression_visitor.rs",
   "src/query/visitor/vid_extract_visitor.rs",
   "src/query/visitor/property_tracker_visitor.rs",
   "src/query/optimizer/prune_properties_visitor.rs",
   "src/expression/visitor.rs",
   "src/expression/evaluator/expression_evaluator.rs"]

/-- The driver loop of main (source lines 224-231): iterate the fixed
path list in order, call process_file on each, increment the counter on
True, and log one status line per path.  Returns the final counter and
the status log. -/
def run_batch (env : String → FileAccess) : Nat × List Outcome :=
  FILES_TO_FIX.foldl
    (fun acc p =>
      ((if (process_file (env p)).fixedFlag then acc.1 + 1 else acc.1),
        acc.2 ++ [(process_file (env p)).outcome]))
    (0, [])

/-- Exit code of main: the source main never re-raises (every per-file
failure is absorbed inside process_file), falls off the end after the
summary print, and so the process exits with status 0. -/
def main_exit_code (env : String → FileAccess) : Nat :=
  let _ := run_batch env
  0

/-! ## Auxiliary definitions for the analysis of the rule set -/

/-- Does the pattern match at some position of the input?  Mirrors the
left-to-right scan of re.search. -/
def hasMatch (p : List RTok) : List Char → Bool
  | [] => (matchPat p []).isSome
  | a :: s => (matchPat p (a :: s)).isSome || hasMatch p s

/-- A pattern that begins with a literal token (true of every rule of the
source); such a pattern consumes at least one character per match. -/
def litHead : List RTok → Bool
  | RTok.lit _ :: _ => true
  | _ => false

/-- The old identifier, as a character list. -/
def exprChars : List Char := ("Expression").data

/-- Decidable prefix test on character lists. -/
def beginsWith : List Char → List Char → Bool
  | [], _ => true
  | _ :: _, [] => false
  | a :: xs, b :: ys => a == b && beginsWith xs ys

/-- Scan the input and require the check f to hold at every occurrence of
the old identifier: at an occurrence with reversed left context rev and
right context b (the text after the occurrence), f rev b must hold. -/
def occScan (f : List Char → List Char → Bool) : List Char → List Char → Bool
  | _, [] => true
  | rev, a :: v =>
    (if beginsWith exprChars (a :: v) then f rev ((a :: v).drop exprChars.length)
     else true)
    && occScan f (a :: rev) v

/-- Every occurrence of the old identifier in s satisfies f. -/
def allOcc (f : List Char → List Char → Bool) (s : List Char) : Bool :=
  occScan f [] s

/-- Does the old identifier occur anywhere in the input? -/
def occursExpr : List Char → Bool
  | [] => false
  | a :: v => beginsWith exprChars (a :: v) || occursExpr v

/-- Head is a word character (false on the empty list). -/
def headIsWord : List Char → Bool
  | [] => false
  | c :: _ => isWordChar c

/-- The right context starts with :: followed by one of the fifteen
variant names at a word boundary, i.e. the occurrence is one the
qualified-variant rules rewrite. -/
def variantTail (b : List Char) : Bool :=
  beginsWith (("::").data) b &&
    VARIANTS.any (fun nm =>
      beginsWith nm.data (b.drop 2) && boundaryAt (b.drop (2 + nm.data.length)))

/-- Occurrence check of the amended claim C1: the occurrence is adjacent
to a word character on at least one side (it is a proper substring of a
longer identifier) and is not immediately followed by ::variant at a word
boundary. -/
def c1ok (rev b : List Char) : Bool :=
  (headIsWord rev || headIsWord b) && !(variantTail b)

/-- Occurrence check of the amended claim C9: the occurrence is qualified
(followed by ::) with a following name that is not one of the fifteen
variant names at a boundary, and it is not immediately preceded by & or by
one of the two import-path prefixes that other rules match. -/
def c9ok (rev b : List Char) : Bool :=
  beginsWith (("::").data) b
  && !(VARIANTS.any (fun nm =>
        beginsWith nm.data (b.drop 2) && boundaryAt (b.drop (2 + nm.data.length))))
  && !(beginsWith [('&')] rev)
  && !(beginsWith (("use crate::expression::").data.reverse) rev)
  && !(beginsWith (("use crate::core::types::expression::").data.reverse) rev)

/-! ## Auxiliary definitions for the idempotence analysis -/

/-- Does matching the pattern against the concrete characters cs die
before cs is exhausted?  Sound in the sense that if it returns true then
the pattern matches no input of the form cs ++ w. -/
def diesIn : List RTok → List Char → Bool
  | [], _ => false
  | _, [] => false
  | RTok.lit c :: p, a :: cs => if a = c then diesIn p cs else true
  | RTok.ws :: p, cs => diesIn p (cs.dropWhile isSpaceChar)
  | RTok.wb :: p, a :: cs =>
    if isWordChar a then true else diesIn p (a :: cs)

/-- Consume the concrete characters cs with a prefix of the pattern and
return the residual pattern that would continue on whatever follows cs;
none when that residual is not well defined (mismatch, or the pattern
ends strictly inside cs). -/
def consumeAll : List RTok → List Char → Option (List RTok)
  | p, [] => some p
  | [], _ :: _ => none
  | RTok.lit c :: p, a :: cs => if a = c then consumeAll p cs else none
  | RTok.ws :: p, a :: cs =>
    if ((a :: cs).dropWhile isSpaceChar).isEmpty then some (RTok.ws :: p)
    else consumeAll p ((a :: cs).dropWhile isSpaceChar)
  | RTok.wb :: p, a :: cs =>
    if isWordChar a then none else consumeAll p (a :: cs)

/-- The pattern ends with the word-boundary token (true of the import,
reference and variant rules of the source). -/
def endsWb : List RTok → Bool
  | [] => false
  | [RTok.wb] => true
  | _ :: p => endsWb p

/-- Junction check for one residual pattern q against a tail cs of the
replacement of a rule r: a match of q starting at the head of cs ++ w
either dies inside cs, or q is empty or a lone word boundary (those two
cases are handled separately and only arise with cs the whole
replacement), or q consumes cs entirely and then demands a word character
that the text w following a replacement of r can never supply, because
the rule ends in a word boundary (so the text after the replaced segment
starts with a non-word character or is empty) and the replacement itself
starts with a different character. -/
def jcheck (q : List RTok) (cs : List Char) (r : Rule) : Bool :=
  diesIn q cs
  || q.isEmpty
  || (q == [RTok.wb])
  || (match consumeAll q cs with
      | some (RTok.lit c :: _) =>
        isWordChar c && !(r.rep.head? == some c) && endsWb r.pat
      | _ => false)

/-- Junction table over the whole rule set: every token-suffix of every
rule pattern passes the junction check against every whole replacement,
and every rule pattern passes it against every tail of every
replacement. -/
def junctionOK : Bool :=
  rules.all (fun r =>
    (rules.all fun q => q.pat.tails.all fun q' => jcheck q' r.rep r)
    && (rules.all fun q =>
         (List.range r.rep.length).all fun k => jcheck q.pat (r.rep.drop k) r))

/-! ## Concrete scenario claims -/

/-- Input text of the claim C3 scenario. -/
def c3Input : String :=
  "use pkg::expression::Expression;\nfn f(x: &Expression) -> Expression \x7b Expression::Literal(x) \x7d"

/-- Output the claim C3 scenario asserts. -/
def c3Claimed : String :=
  "use pkg::expression::Expr;\nfn f(x: &Expr) -> Expr \x7b Expr::Literal(x) \x7d"

/-- Output the transform actually produces on the claim C3 input: the
use line names the path pkg, which no rule matches (the two use rules
require the literal paths use crate::expression:: and
use crate::core::types::expression::), and the bare return type
Expression is matched by no rule either; only &Expression and
Expression::Literal are rewritten. -/
def c3Actual : String :=
  "use pkg::expression::Expression;\nfn f(x: &Expr) -> Expression \x7b Expr::Literal(x) \x7d"

/-- Claim C1, counterexample: in the input MyExpression::Literal the old
identifier Expression occurs only as a proper substring of the longer
identifier MyExpression, yet the transform rewrites it, because the
qualified-variant rules anchor only the right side of the token (the
pattern Expression::Literal\b has no left boundary).  So the claim as
stated is false. -/
theorem c1_counterexample :
    fixString "MyExpression::Literal" = "MyExpr::Literal" ∧
      fixString "MyExpression::Literal" ≠ "MyExpression::Literal" := by
  constructor
  · decide
  · decide

/-- Claim C3, counterexample: on the exact input text of the claim the
transform does not produce the asserted output; it leaves the
use pkg::expression::Expression; line and the bare return type
Expression unchanged. -/
theorem c3_counterexample :
    fixString c3Input ≠ c3Claimed ∧ fixString c3Input = c3Actual := by
  constructor
  · decide
  · decide

/-- Claim C3, amended: on the claim input, one application of the
transform rewrites &Expression to &Expr and Expression::Literal to
Expr::Literal while leaving the pkg import line and the bare return type
unchanged; the file is overwritten with that output and reported as
modified (process_file returns True), and a second run on the resulting
content performs no write and reports it unchanged. -/
theorem c3_amended_end_to_end :
    process_file (FileAccess.ok c3Input.data true) =
        ⟨true, Outcome.modified, some c3Actual.data⟩ ∧
      process_file (FileAccess.ok c3Actual.data true) =
        ⟨false, Outcome.unchanged, none⟩ := by
  constructor
  · decide
  · decide

/-- Claim C4: rule 9 of the source contradicts its own comment.  The
comment documents the replacement &[(String, Expression)] ->
&[(String, Expr)], but the pattern &\[String,\s*Expression\] matches the
text &[String, Expression] (no parentheses) and the replacement inserts
parentheses, so the surrounding text of the matched region is not
byte-for-byte preserved; the documented old pattern itself is left
completely unchanged. -/
theorem c4_rule9_failing_input :
    fixString "&[String, Expression]" = "&[(String, Expr)]" ∧
      fixString "&[(String, Expression)]" = "&[(String, Expression)]" := by
  constructor
  · decide
  · decide

/-- Claim C5: an input containing Vec<Expression>, Box<Expression>,
Option<Box<Expression>>, and (Expression, Expression) has all four
converted in a single application; Option<Box<Expression>> is converted
even though the Box<Expression> rule runs before the
Option<Box<Expression>> rule, because the Box rule already rewrites the
inner occurrence. -/
theorem c5_generic_containers_one_pass :
    fixString "fn g(a: Vec<Expression>, b: Box<Expression>, c: Option<Box<Expression>>, d: (Expression, Expression))" =
      "fn g(a: Vec<Expr>, b: Box<Expr>, c: Option<Box<Expr>>, d: (Expr, Expr))" := by
  decide

/-- Claim C9, counterexample: the claim quantifies over every input text,
but in &Expression::eval the qualified occurrence Expression::eval (eval
is not one of the fifteen variant names) is still rewritten, because the
rule &Expression\b fires on the &Expression prefix of it.  So the claim
as stated is false. -/
theorem c9_counterexample :
    fixString "&Expression::eval" = "&Expr::eval" ∧
      fixString "&Expression::eval" ≠ "&Expression::eval" := by
  constructor
  · decide
  · decide

/-! ## Basic lemmas about matching and substitution -/

theorem boundaryAt_headIsWord {b : List Char} (h : boundaryAt b = true) :
    headIsWord b = false := by
  cases b with
  | nil => rfl
  | cons c t =>
    simp [boundaryAt] at h
    simp [headIsWord, h]

theorem matchPat_eq_drop :
    ∀ (p : List RTok) (s r : List Char), matchPat p s = some r → ∃ u, s = u ++ r
  | [], s, r, h => ⟨[], by simpa [matchPat] using Option.some_inj.mp h⟩
  | RTok.lit c :: p, [], r, h => by simp [matchPat] at h
  | RTok.lit c :: p, a :: s, r, h => by
    by_cases hac : a = c
    · simp [matchPat, hac] at h
      obtain ⟨u, hu⟩ := matchPat_eq_drop p s r h
      exact ⟨a :: u, by simp [hu]⟩
    · simp [matchPat, hac] at h
  | RTok.ws :: p, s, r, h => by
    simp only [matchPat] at h
    obtain ⟨u, hu⟩ := matchPat_eq_drop p (s.dropWhile isSpaceChar) r h
    exact ⟨s.takeWhile isSpaceChar ++ u, by
      conv_lhs => rw [← List.takeWhile_append_dropWhile (p := isSpaceChar) (l := s)]
      rw [hu, List.append_assoc]⟩
  | RTok.wb :: p, s, r, h => by
    by_cases hb : boundaryAt s = true
    · simp [matchPat, hb] at h
      exact matchPat_eq_drop p s r h
    · simp [matchPat, hb] at h

theorem matchPat_litHead_lt {p : List RTok} (hp : litHead p = true)
    {s r : List Char} (h : matchPat p s = some r) : r.length < s.length := by
  cases p with
  | nil => simp [litHead] at hp
  | cons t p =>
    cases t with
    | lit c =>
      cases s with
      | nil => simp [matchPat] at h
      | cons a s =>
        by_cases hac : a = c
        · simp [matchPat, hac] at h
          obtain ⟨u, hu⟩ := matchPat_eq_drop p s r h
          simp [hu]
          omega
        · simp [matchPat, hac] at h
    | ws => simp [litHead] at hp
    | wb => simp [litHead] at hp

theorem subF_succ_match (p : List RTok) (rep : List Char) (f : Nat) (a : Char)
    (s rest : List Char) (h : matchPat p (a :: s) = some rest) :
    subF p rep (f + 1) (a :: s) = rep ++ subF p rep f rest := by
  simp only [subF]
  rw [h]

theorem subF_succ_nomatch (p : List RTok) (rep : List Char) (f : Nat) (a : Char)
    (s : List Char) (h : matchPat p (a :: s) = none) :
    subF p rep (f + 1) (a :: s) = a :: subF p rep f s := by
  simp only [subF]
  rw [h]

theorem subF_fuel (p : List RTok) (hp : litHead p = true) (rep : List Char) :
    ∀ (f₁ f₂ : Nat) (s : List Char), s.length ≤ f₁ → s.length ≤ f₂ →
      subF p rep f₁ s = subF p rep f₂ s := by
  intro f₁
  induction f₁ with
  | zero =>
    intro f₂ s h₁ _
    have : s = [] := List.length_eq_zero.mp (Nat.le_zero.mp h₁)
    subst this
    cases f₂ <;> rfl
  | succ f ih =>
    intro f₂ s h₁ h₂
    cases s with
    | nil => cases f₂ <;> rfl
    | cons a s =>
      cases f₂ with
      | zero => simp at h₂
      | succ f' =>
        cases hm : matchPat p (a :: s) with
        | some rest =>
          have hlt : rest.length < s.length + 1 := by
            simpa using matchPat_litHead_lt hp hm
          have h₁' : rest.length ≤ f := by simp at h₁; omega
          have h₂' : rest.length ≤ f' := by simp at h₂; omega
          rw [subF_succ_match p rep f a s rest hm,
            subF_succ_match p rep f' a s rest hm, ih f' rest h₁' h₂']
        | none =>
          have h₁' : s.length ≤ f := by simp at h₁; omega
          have h₂' : s.length ≤ f' := by simp at h₂; omega
          rw [subF_succ_nomatch p rep f a s hm,
            subF_succ_nomatch p rep f' a s hm, ih f' s h₁' h₂']

theorem subst_nil (p : List RTok) (rep : List Char) : subst p rep [] = [] := rfl

theorem subst_match {p : List RTok} (hp : litHead p = true) (rep : List Char)
    {a : Char} {s rest : List Char} (h : matchPat p (a :: s) = some rest) :
    subst p rep (a :: s) = rep ++ subst p rep rest := by
  have hlt : rest.length ≤ s.length := by
    have := matchPat_litHead_lt hp h
    simp at this
    omega
  show subF p rep (s.length + 1) (a :: s) = _
  rw [subF_succ_match p rep s.length a s rest h,
    subF_fuel p hp rep s.length rest.length rest hlt (Nat.le_refl _)]
  rfl

theorem subst_nomatch (p : List RTok) (rep : List Char)
    {a : Char} {s : List Char} (h : matchPat p (a :: s) = none) :
    subst p rep (a :: s) = a :: subst p rep s := by
  show subF p rep (s.length + 1) (a :: s) = _
  rw [subF_succ_nomatch p rep s.length a s h]
  rfl

theorem hasMatch_nil (p : List RTok) : hasMatch p [] = (matchPat p []).isSome := rfl

theorem hasMatch_cons (p : List RTok) (a : Char) (s : List Char) :
    hasMatch p (a :: s) = ((matchPat p (a :: s)).isSome || hasMatch p s) := rfl

theorem hasMatch_of_match (p : List RTok) (u v : List Char)
    (h : (matchPat p v).isSome) : hasMatch p (u ++ v) = true := by
  induction u with
  | nil =>
    cases v with
    | nil => simpa [hasMatch] using h
    | cons a t => simp [hasMatch, h]
  | cons a u ih => simp [hasMatch, ih]

theorem exists_of_hasMatch (p : List RTok) :
    ∀ (s : List Char), hasMatch p s = true →
      ∃ u v r, s = u ++ v ∧ matchPat p v = some r
  | [], h => by
    rw [hasMatch_nil, Option.isSome_iff_exists] at h
    obtain ⟨r, hr⟩ := h
    exact ⟨[], [], r, rfl, hr⟩
  | a :: s, h => by
    rw [hasMatch_cons, Bool.or_eq_true] at h
    cases h with
    | inl h =>
      rw [Option.isSome_iff_exists] at h
      obtain ⟨r, hr⟩ := h
      exact ⟨[], a :: s, r, rfl, hr⟩
    | inr h =>
      obtain ⟨u, v, r, hs, hr⟩ := exists_of_hasMatch p s h
      exact ⟨a :: u, v, r, by simp [hs], hr⟩

theorem subst_id_of_not_hasMatch (p : List RTok) (rep : List Char) :
    ∀ (s : List Char), hasMatch p s = false → subst p rep s = s
  | [], _ => rfl
  | a :: s, h => by
    rw [hasMatch_cons, Bool.or_eq_false_iff] at h
    have hm : matchPat p (a :: s) = none := by
      cases hx : matchPat p (a :: s) with
      | none => rfl
      | some r => rw [hx] at h; simp at h
    rw [subst_nomatch p rep hm, subst_id_of_not_hasMatch p rep s h.2]

theorem foldl_subst_id :
    ∀ (rs : List Rule) (s : List Char), (∀ r ∈ rs, hasMatch r.pat s = false) →
      rs.foldl (fun t r => subst r.pat r.rep t) s = s
  | [], s, _ => rfl
  | r :: rs, s, h => by
    simp only [List.foldl_cons]
    rw [subst_id_of_not_hasMatch r.pat r.rep s (h r (List.mem_cons_self r rs))]
    exact foldl_subst_id rs s (fun q hq => h q (List.mem_cons_of_mem r hq))

theorem fix_id_of_clean (s : List Char)
    (h : ∀ r ∈ rules, hasMatch r.pat s = false) :
    fix_expression_references s = s :=
  foldl_subst_id rules s h

/-! ## Decomposition of matches of the individual rules -/

theorem match_split (cs : List Char) (q : List RTok) :
    ∀ {s r : List Char}, matchPat (cs.map RTok.lit ++ q) s = some r →
      ∃ b, s = cs ++ b ∧ matchPat q b = some r := by
  induction cs with
  | nil => intro s r h; exact ⟨s, rfl, by simpa using h⟩
  | cons c cs ih =>
    intro s r h
    cases s with
    | nil => simp [matchPat] at h
    | cons a s =>
      by_cases hac : a = c
      · subst hac
        simp only [List.map_cons, List.cons_append, matchPat, if_pos rfl] at h
        obtain ⟨b, hb, hm⟩ := ih h
        exact ⟨b, by simp [hb], hm⟩
      · simp [matchPat, hac] at h

theorem matchPat_wb {b r : List Char} (h : matchPat [RTok.wb] b = some r) :
    boundaryAt b = true := by
  by_cases hb : boundaryAt b = true
  · exact hb
  · simp [matchPat, hb] at h

theorem matchPat_ws_cons (q : List RTok) (b : List Char) :
    matchPat (RTok.ws :: q) b = matchPat q (b.dropWhile isSpaceChar) := rfl

theorem isSpaceChar_not_word {c : Char} (h : isSpaceChar c = true) :
    isWordChar c = false := by
  simp only [isSpaceChar, Bool.or_eq_true, beq_iff_eq] at h
  rcases h with ((((h | h) | h) | h) | h) | h <;> subst h <;> decide

theorem all_isSpace_takeWhile :
    ∀ (l : List Char), (l.takeWhile isSpaceChar).all isSpaceChar = true
  | [] => rfl
  | c :: l => by
    by_cases hc : isSpaceChar c = true
    · simp [List.takeWhile, hc, all_isSpace_takeWhile l]
    · simp only [Bool.not_eq_true] at hc
      simp [List.takeWhile, hc]

theorem match_rUse1 {v r : List Char} (h : matchPat rUse1.pat v = some r) :
    ∃ b, v = ("use crate::expression::").data ++ (exprChars ++ b) ∧
      boundaryAt b = true := by
  have hd : rUse1.pat
      = (("use crate::expression::").data ++ exprChars).map RTok.lit ++ [RTok.wb] := by
    decide
  rw [hd, List.map_append, List.append_assoc] at h
  obtain ⟨b₁, hb₁, hm₁⟩ := match_split _ _ h
  obtain ⟨b, hb, hm⟩ := match_split _ _ hm₁
  exact ⟨b, by rw [hb₁, hb], matchPat_wb hm⟩

theorem match_rUse2 {v r : List Char} (h : matchPat rUse2.pat v = some r) :
    ∃ b, v = ("use crate::core::types::expression::").data ++ (exprChars ++ b) ∧
      boundaryAt b = true := by
  have hd : rUse2.pat
      = (("use crate::core::types::expression::").data ++ exprChars).map RTok.lit
        ++ [RTok.wb] := by
    decide
  rw [hd, List.map_append, List.append_assoc] at h
  obtain ⟨b₁, hb₁, hm₁⟩ := match_split _ _ h
  obtain ⟨b, hb, hm⟩ := match_split _ _ hm₁
  exact ⟨b, by rw [hb₁, hb], matchPat_wb hm⟩

theorem match_rAmp {v r : List Char} (h : matchPat rAmp.pat v = some r) :
    ∃ b, v = ['&'] ++ (exprChars ++ b) ∧ boundaryAt b = true := by
  have hd : rAmp.pat = (['&'] ++ exprChars).map RTok.lit ++ [RTok.wb] := by decide
  rw [hd, List.map_append, List.append_assoc] at h
  obtain ⟨b₁, hb₁, hm₁⟩ := match_split _ _ h
  obtain ⟨b, hb, hm⟩ := match_split _ _ hm₁
  exact ⟨b, by rw [hb₁, hb], matchPat_wb hm⟩

theorem match_variant (nm : String) {v r : List Char}
    (h : matchPat (variantRule nm).pat v = some r) :
    ∃ b, v = exprChars ++ ((':' :: ':' :: nm.data) ++ b) ∧ boundaryAt b = true := by
  obtain ⟨nmd⟩ := nm
  have hd : (variantRule ⟨nmd⟩).pat
      = exprChars.map RTok.lit
        ++ ((':' :: ':' :: nmd).map RTok.lit ++ [RTok.wb]) := by
    show ((("Expression::").data ++ nmd).map RTok.lit) ++ [RTok.wb] = _
    have hx : ("Expression::").data = exprChars ++ [':', ':'] := by decide
    simp [hx]
    rfl
  rw [hd] at h
  obtain ⟨b₁, hb₁, hm₁⟩ := match_split _ _ h
  obtain ⟨b, hb, hm⟩ := match_split _ _ hm₁
  exact ⟨b, by rw [hb₁, hb], matchPat_wb hm⟩

theorem match_rVec {v r : List Char} (h : matchPat rVec.pat v = some r) :
    ∃ b, v = ("Vec<").data ++ (exprChars ++ ('>' :: b)) := by
  have hd : rVec.pat
      = (("Vec<").data).map RTok.lit
        ++ (exprChars.map RTok.lit ++ ((['>']).map RTok.lit ++ [])) := by decide
  rw [hd] at h
  obtain ⟨b₁, hb₁, hm₁⟩ := match_split _ _ h
  obtain ⟨b₂, hb₂, hm₂⟩ := match_split _ _ hm₁
  obtain ⟨b₃, hb₃, _⟩ := match_split _ _ hm₂
  exact ⟨b₃, by rw [hb₁, hb₂, hb₃]; rfl⟩

theorem match_rBox {v r : List Char} (h : matchPat rBox.pat v = some r) :
    ∃ b, v = ("Box<").data ++ (exprChars ++ ('>' :: b)) := by
  have hd : rBox.pat
      = (("Box<").data).map RTok.lit
        ++ (exprChars.map RTok.lit ++ ((['>']).map RTok.lit ++ [])) := by decide
  rw [hd] at h
  obtain ⟨b₁, hb₁, hm₁⟩ := match_split _ _ h
  obtain ⟨b₂, hb₂, hm₂⟩ := match_split _ _ hm₁
  obtain ⟨b₃, hb₃, _⟩ := match_split _ _ hm₂
  exact ⟨b₃, by rw [hb₁, hb₂, hb₃]; rfl⟩

theorem match_rOptBox {v r : List Char} (h : matchPat rOptBox.pat v = some r) :
    ∃ b, v = ("Option<Box<").data ++ (exprChars ++ ('>' :: '>' :: b)) := by
  have hd : rOptBox.pat
      = (("Option<Box<").data).map RTok.lit
        ++ (exprChars.map RTok.lit ++ ((['>', '>']).map RTok.lit ++ [])) := by decide
  rw [hd] at h
  obtain ⟨b₁, hb₁, hm₁⟩ := match_split _ _ h
  obtain ⟨b₂, hb₂, hm₂⟩ := match_split _ _ hm₁
  obtain ⟨b₃, hb₃, _⟩ := match_split _ _ hm₂
  exact ⟨b₃, by rw [hb₁, hb₂, hb₃]; rfl⟩

theorem match_rTuple {v r : List Char} (h : matchPat rTuple.pat v = some r) :
    ∃ b, v = ['('] ++ (exprChars ++ (',' :: b)) := by
  have hd : rTuple.pat
      = (['(']).map RTok.lit
        ++ (exprChars.map RTok.lit
          ++ (([',']).map RTok.lit
            ++ (RTok.ws :: ("Expression)").data.map RTok.lit))) := by decide
  rw [hd] at h
  obtain ⟨b₁, hb₁, hm₁⟩ := match_split _ _ h
  obtain ⟨b₂, hb₂, hm₂⟩ := match_split _ _ hm₁
  obtain ⟨b₃, hb₃, _⟩ := match_split _ _ hm₂
  exact ⟨b₃, by rw [hb₁, hb₂, hb₃]; rfl⟩

theorem match_rSliceTuple {v r : List Char}
    (h : matchPat rSliceTuple.pat v = some r) :
    ∃ b, v = ("&[(").data ++ (exprChars ++ (',' :: b)) := by
  have hd : rSliceTuple.pat
      = (("&[(").data).map RTok.lit
        ++ (exprChars.map RTok.lit
          ++ (([',']).map RTok.lit
            ++ (RTok.ws :: ("Expression)]").data.map RTok.lit))) := by decide
  rw [hd] at h
  obtain ⟨b₁, hb₁, hm₁⟩ := match_split _ _ h
  obtain ⟨b₂, hb₂, hm₂⟩ := match_split _ _ hm₁
  obtain ⟨b₃, hb₃, _⟩ := match_split _ _ hm₂
  exact ⟨b₃, by rw [hb₁, hb₂, hb₃]; rfl⟩

theorem match_rSliceString {v r : List Char}
    (h : matchPat rSliceString.pat v = some r) :
    ∃ w b, v = ("&[String,").data ++ (w ++ (exprChars ++ (']' :: b))) ∧
      w.all isSpaceChar = true := by
  have hd : rSliceString.pat
      = (("&[String,").data).map RTok.lit
        ++ (RTok.ws :: (exprChars.map RTok.lit ++ (([']']).map RTok.lit ++ []))) := by
    decide
  rw [hd] at h
  obtain ⟨b₁, hb₁, hm₁⟩ := match_split _ _ h
  rw [matchPat_ws_cons] at hm₁
  obtain ⟨b₂, hb₂, hm₂⟩ := match_split _ _ hm₁
  obtain ⟨b₃, hb₃, _⟩ := match_split _ _ hm₂
  refine ⟨b₁.takeWhile isSpaceChar, b₃, ?_, all_isSpace_takeWhile b₁⟩
  rw [hb₁]
  congr 1
  conv_lhs => rw [← List.takeWhile_append_dropWhile (p := isSpaceChar) (l := b₁)]
  rw [hb₂, hb₃]
  simp

/-! ## Occurrence scanning -/

theorem beginsWith_append (xs t : List Char) : beginsWith xs (xs ++ t) = true := by
  induction xs with
  | nil => rfl
  | cons a xs ih => simp [beginsWith, ih]

theorem occursExpr_of_split :
    ∀ (u b : List Char), occursExpr (u ++ (exprChars ++ b)) = true
  | [], b => by
    show occursExpr (exprChars ++ b) = true
    have : exprChars ++ b = 'E' :: (("xpression").data ++ b) := by
      show exprChars ++ b = ('E' :: ("xpression").data) ++ b
      rfl
    rw [this]
    show (beginsWith exprChars (('E' :: ("xpression").data) ++ b) || _) = true
    rw [show ('E' :: ("xpression").data) = exprChars from rfl,
      beginsWith_append]
    rfl
  | c :: u, b => by
    show (_ || occursExpr (u ++ (exprChars ++ b))) = true
    rw [occursExpr_of_split u b, Bool.or_true]

theorem occScan_spec (f : List Char → List Char → Bool) :
    ∀ (v rev : List Char), occScan f rev v = true →
      ∀ (u b : List Char), v = u ++ (exprChars ++ b) → f (u.reverse ++ rev) b = true
  | [], rev, h, u, b, hv => by
    exfalso
    have : ([] : List Char).length = (u ++ (exprChars ++ b)).length := by rw [hv]
    simp [exprChars] at this
    omega
  | a :: v, rev, h, u, b, hv => by
    simp only [occScan, Bool.and_eq_true] at h
    cases u with
    | nil =>
      simp only [List.nil_append] at hv
      have hbg : beginsWith exprChars (a :: v) = true := by
        rw [hv]; exact beginsWith_append exprChars b
      have hdrop : (a :: v).drop exprChars.length = b := by
        rw [hv]; exact List.drop_left exprChars b
      have := h.1
      rw [if_pos hbg, hdrop] at this
      simpa using this
    | cons c u =>
      have hac : a = c ∧ v = u ++ (exprChars ++ b) := by
        have := hv
        simp only [List.cons_append] at this
        exact ⟨List.head_eq_of_cons_eq this, List.tail_eq_of_cons_eq this⟩
      obtain ⟨rfl, hv'⟩ := hac
      have := occScan_spec f v (a :: rev) h.2 u b hv'
      simpa [List.append_assoc] using this

theorem allOcc_spec (f : List Char → List Char → Bool) (s : List Char)
    (h : allOcc f s = true) (u b : List Char) (hs : s = u ++ (exprChars ++ b)) :
    f u.reverse b = true := by
  simpa using occScan_spec f s [] h u b hs

/-! ## Case analysis over the rule set -/

theorem rules_cases {r : Rule} (hr : r ∈ rules) :
    r = rUse1 ∨ r = rUse2 ∨ r = rAmp ∨ (∃ nm ∈ VARIANTS, r = variantRule nm) ∨
      r = rVec ∨ r = rBox ∨ r = rOptBox ∨ r = rTuple ∨ r = rSliceTuple ∨
      r = rSliceString := by
  simp only [rules, List.mem_append, List.mem_cons, List.not_mem_nil, or_false,
    List.mem_map] at hr
  rcases hr with ((rfl | rfl | rfl) | ⟨nm, hnm, rfl⟩) |
    (rfl | rfl | rfl | rfl | rfl | rfl)
  · exact Or.inl rfl
  · exact Or.inr (Or.inl rfl)
  · exact Or.inr (Or.inr (Or.inl rfl))
  · exact Or.inr (Or.inr (Or.inr (Or.inl ⟨nm, hnm, rfl⟩)))
  · exact Or.inr (Or.inr (Or.inr (Or.inr (Or.inl rfl))))
  · exact Or.inr (Or.inr (Or.inr (Or.inr (Or.inr (Or.inl rfl)))))
  · exact Or.inr (Or.inr (Or.inr (Or.inr (Or.inr (Or.inr (Or.inl rfl))))))
  · exact Or.inr (Or.inr (Or.inr (Or.inr (Or.inr (Or.inr (Or.inr (Or.inl rfl)))))))
  · exact Or.inr (Or.inr (Or.inr (Or.inr (Or.inr (Or.inr (Or.inr (Or.inr
      (Or.inl rfl))))))))
  · exact Or.inr (Or.inr (Or.inr (Or.inr (Or.inr (Or.inr (Or.inr (Or.inr
      (Or.inr rfl))))))))

theorem headIsWord_append_left {l : List Char} (hl : l ≠ []) (l' : List Char) :
    headIsWord (l ++ l') = headIsWord l := by
  cases l with
  | nil => exact absurd rfl hl
  | cons c t => rfl

theorem headIsWord_space_rev_append {w : List Char} (hw : w.all isSpaceChar = true)
    {l : List Char} (hl : headIsWord l = false) :
    headIsWord (w.reverse ++ l) = false := by
  cases hwr : w.reverse with
  | nil => simpa using hl
  | cons c t =>
    have hc : c ∈ w := by
      rw [← List.mem_reverse, hwr]
      exact List.mem_cons_self c t
    have := isSpaceChar_not_word (List.all_eq_true.mp hw c hc)
    simp [headIsWord, this]

/-! ## No rule matches when every occurrence is protected -/

theorem no_occur_kill {s : List Char} (h : occursExpr s = false)
    {U B : List Char} (hs : s = U ++ (exprChars ++ B)) : False := by
  rw [hs, occursExpr_of_split] at h
  exact Bool.true_eq_false.mp h

theorem clean_of_no_occur (s : List Char) (h : occursExpr s = false) :
    ∀ r ∈ rules, hasMatch r.pat s = false := by
  intro r hr
  by_contra hx
  rw [Bool.not_eq_false] at hx
  obtain ⟨u, v, mr, hs, hm⟩ := exists_of_hasMatch r.pat s hx
  subst hs
  rcases rules_cases hr with rfl | rfl | rfl | ⟨nm, _, rfl⟩ | rfl | rfl | rfl |
    rfl | rfl | rfl
  · obtain ⟨b, hb, _⟩ := match_rUse1 hm
    exact no_occur_kill h (U := u ++ ("use crate::expression::").data) (B := b)
      (by rw [hb]; simp [List.append_assoc])
  · obtain ⟨b, hb, _⟩ := match_rUse2 hm
    exact no_occur_kill h
      (U := u ++ ("use crate::core::types::expression::").data) (B := b)
      (by rw [hb]; simp [List.append_assoc])
  · obtain ⟨b, hb, _⟩ := match_rAmp hm
    exact no_occur_kill h (U := u ++ ['&']) (B := b)
      (by rw [hb]; simp [List.append_assoc])
  · obtain ⟨b, hb, _⟩ := match_variant nm hm
    exact no_occur_kill h (U := u) (B := (':' :: ':' :: nm.data) ++ b)
      (by rw [hb])
  · obtain ⟨b, hb⟩ := match_rVec hm
    exact no_occur_kill h (U := u ++ ("Vec<").data) (B := '>' :: b)
      (by rw [hb]; simp [List.append_assoc])
  · obtain ⟨b, hb⟩ := match_rBox hm
    exact no_occur_kill h (U := u ++ ("Box<").data) (B := '>' :: b)
      (by rw [hb]; simp [List.append_assoc])
  · obtain ⟨b, hb⟩ := match_rOptBox hm
    exact no_occur_kill h (U := u ++ ("Option<Box<").data) (B := '>' :: '>' :: b)
      (by rw [hb]; simp [List.append_assoc])
  · obtain ⟨b, hb⟩ := match_rTuple hm
    exact no_occur_kill h (U := u ++ ['(']) (B := ',' :: b)
      (by rw [hb]; simp [List.append_assoc])
  · obtain ⟨b, hb⟩ := match_rSliceTuple hm
    exact no_occur_kill h (U := u ++ ("&[(").data) (B := ',' :: b)
      (by rw [hb]; simp [List.append_assoc])
  · obtain ⟨w, b, hb, _⟩ := match_rSliceString hm
    exact no_occur_kill h
      (U := (u ++ ("&[String,").data) ++ w) (B := ']' :: b)
      (by rw [hb]; simp [List.append_assoc])

theorem clean_of_c1ok (s : List Char) (h : allOcc c1ok s = true) :
    ∀ r ∈ rules, hasMatch r.pat s = false := by
  intro r hr
  by_contra hx
  rw [Bool.not_eq_false] at hx
  obtain ⟨u, v, mr, hs, hm⟩ := exists_of_hasMatch r.pat s hx
  subst hs
  rcases rules_cases hr with rfl | rfl | rfl | ⟨nm, hnm, rfl⟩ | rfl | rfl | rfl |
    rfl | rfl | rfl
  · obtain ⟨b, hb, hbd⟩ := match_rUse1 hm
    subst hb
    have hf := allOcc_spec c1ok _ h (u ++ ("use crate::expression::").data) b
      (by simp [List.append_assoc])
    have h1 : headIsWord ((u ++ ("use crate::expression::").data).reverse) = false := by
      rw [List.reverse_append, headIsWord_append_left (by decide)]
      decide
    have h2 := boundaryAt_headIsWord hbd
    simp only [c1ok] at hf
    rw [h1, h2] at hf
    simp at hf
  · obtain ⟨b, hb, hbd⟩ := match_rUse2 hm
    subst hb
    have hf := allOcc_spec c1ok _ h
      (u ++ ("use crate::core::types::expression::").data) b
      (by simp [List.append_assoc])
    have h1 : headIsWord
        ((u ++ ("use crate::core::types::expression::").data).reverse) = false := by
      rw [List.reverse_append, headIsWord_append_left (by decide)]
      decide
    have h2 := boundaryAt_headIsWord hbd
    simp only [c1ok] at hf
    rw [h1, h2] at hf
    simp at hf
  · obtain ⟨b, hb, hbd⟩ := match_rAmp hm
    subst hb
    have hf := allOcc_spec c1ok _ h (u ++ ['&']) b (by simp [List.append_assoc])
    have h1 : headIsWord ((u ++ ['&']).reverse) = false := by
      rw [List.reverse_append, headIsWord_append_left (by decide)]
      decide
    have h2 := boundaryAt_headIsWord hbd
    simp only [c1ok] at hf
    rw [h1, h2] at hf
    simp at hf
  · obtain ⟨b, hb, hbd⟩ := match_variant nm hm
    subst hb
    have hf := allOcc_spec c1ok _ h u ((':' :: ':' :: nm.data) ++ b) rfl
    have hvt : variantTail ((':' :: ':' :: nm.data) ++ b) = true := by
      have hsh : (':' :: ':' :: nm.data) ++ b = ':' :: ':' :: (nm.data ++ b) := by
        simp
      rw [hsh]
      refine (Bool.and_eq_true _ _).mpr ⟨?_, ?_⟩
      · exact beginsWith_append [':', ':'] (nm.data ++ b)
      · refine List.any_eq_true.mpr ⟨nm, hnm, ?_⟩
        refine (Bool.and_eq_true _ _).mpr ⟨?_, ?_⟩
        · exact beginsWith_append nm.data b
        · have hdr : (':' :: ':' :: (nm.data ++ b)).drop (2 + nm.data.length) = b := by
            rw [Nat.add_comm, List.drop_succ_cons, List.drop_succ_cons]
            exact List.drop_left nm.data b
          rw [hdr]
          exact hbd
    simp only [c1ok] at hf
    rw [hvt] at hf
    simp at hf
  · obtain ⟨b, hb⟩ := match_rVec hm
    subst hb
    have hf := allOcc_spec c1ok _ h (u ++ ("Vec<").data) ('>' :: b)
      (by simp [List.append_assoc])
    have h1 : headIsWord ((u ++ ("Vec<").data).reverse) = false := by
      rw [List.reverse_append, headIsWord_append_left (by decide)]
      decide
    have h2 : headIsWord ('>' :: b) = false := by
      show isWordChar '>' = false
      decide
    simp only [c1ok] at hf
    rw [h1, h2] at hf
    simp at hf
  · obtain ⟨b, hb⟩ := match_rBox hm
    subst hb
    have hf := allOcc_spec c1ok _ h (u ++ ("Box<").data) ('>' :: b)
      (by simp [List.append_assoc])
    have h1 : headIsWord ((u ++ ("Box<").data).reverse) = false := by
      rw [List.reverse_append, headIsWord_append_left (by decide)]
      decide
    have h2 : headIsWord ('>' :: b) = false := by
      show isWordChar '>' = false
      decide
    simp only [c1ok] at hf
    rw [h1, h2] at hf
    simp at hf
  · obtain ⟨b, hb⟩ := match_rOptBox hm
    subst hb
    have hf := allOcc_spec c1ok _ h (u ++ ("Option<Box<").data) ('>' :: '>' :: b)
      (by simp [List.append_assoc])
    have h1 : headIsWord ((u ++ ("Option<Box<").data).reverse) = false := by
      rw [List.reverse_append, headIsWord_append_left (by decide)]
      decide
    have h2 : headIsWord ('>' :: '>' :: b) = false := by
      show isWordChar '>' = false
      decide
    simp only [c1ok] at hf
    rw [h1, h2] at hf
    simp at hf
  · obtain ⟨b, hb⟩ := match_rTuple hm
    subst hb
    have hf := allOcc_spec c1ok _ h (u ++ ['(']) (',' :: b)
      (by simp [List.append_assoc])
    have h1 : headIsWord ((u ++ ['(']).reverse) = false := by
      rw [List.reverse_append, headIsWord_append_left (by decide)]
      decide
    have h2 : headIsWord (',' :: b) = false := by
      show isWordChar ',' = false
      decide
    simp only [c1ok] at hf
    rw [h1, h2] at hf
    simp at hf
  · obtain ⟨b, hb⟩ := match_rSliceTuple hm
    subst hb
    have hf := allOcc_spec c1ok _ h (u ++ ("&[(").data) (',' :: b)
      (by simp [List.append_assoc])
    have h1 : headIsWord ((u ++ ("&[(").data).reverse) = false := by
      rw [List.reverse_append, headIsWord_append_left (by decide)]
      decide
    have h2 : headIsWord (',' :: b) = false := by
      show isWordChar ',' = false
      decide
    simp only [c1ok] at hf
    rw [h1, h2] at hf
    simp at hf
  · obtain ⟨w, b, hb, hw⟩ := match_rSliceString hm
    subst hb
    have hf := allOcc_spec c1ok _ h ((u ++ ("&[String,").data) ++ w) (']' :: b)
      (by simp [List.append_assoc])
    have h1 : headIsWord (((u ++ ("&[String,").data) ++ w).reverse) = false := by
      rw [List.reverse_append]
      refine headIsWord_space_rev_append hw ?_
      rw [List.reverse_append, headIsWord_append_left (by decide)]
      decide
    have h2 : headIsWord (']' :: b) = false := by
      show isWordChar ']' = false
      decide
    simp only [c1ok] at hf
    rw [h1, h2] at hf
    simp at hf

theorem clean_of_c9ok (s : List Char) (h : allOcc c9ok s = true) :
    ∀ r ∈ rules, hasMatch r.pat s = false := by
  intro r hr
  by_contra hx
  rw [Bool.not_eq_false] at hx
  obtain ⟨u, v, mr, hs, hm⟩ := exists_of_hasMatch r.pat s hx
  subst hs
  rcases rules_cases hr with rfl | rfl | rfl | ⟨nm, hnm, rfl⟩ | rfl | rfl | rfl |
    rfl | rfl | rfl
  · obtain ⟨b, hb, _⟩ := match_rUse1 hm
    subst hb
    have hf := allOcc_spec c9ok _ h (u ++ ("use crate::expression::").data) b
      (by simp [List.append_assoc])
    have hbg : beginsWith (("use crate::expression::").data.reverse)
        ((u ++ ("use crate::expression::").data).reverse) = true := by
      rw [List.reverse_append]
      exact beginsWith_append _ _
    simp only [c9ok] at hf
    rw [hbg] at hf
    simp at hf
  · obtain ⟨b, hb, _⟩ := match_rUse2 hm
    subst hb
    have hf := allOcc_spec c9ok _ h
      (u ++ ("use crate::core::types::expression::").data) b
      (by simp [List.append_assoc])
    have hbg : beginsWith (("use crate::core::types::expression::").data.reverse)
        ((u ++ ("use crate::core::types::expression::").data).reverse) = true := by
      rw [List.reverse_append]
      exact beginsWith_append _ _
    simp only [c9ok] at hf
    rw [hbg] at hf
    simp at hf
  · obtain ⟨b, hb, _⟩ := match_rAmp hm
    subst hb
    have hf := allOcc_spec c9ok _ h (u ++ ['&']) b (by simp [List.append_assoc])
    have hbg : beginsWith ['&'] ((u ++ ['&']).reverse) = true := by
      rw [List.reverse_append]
      exact beginsWith_append ['&'] _
    simp only [c9ok] at hf
    rw [hbg] at hf
    simp at hf
  · obtain ⟨b, hb, hbd⟩ := match_variant nm hm
    subst hb
    have hf := allOcc_spec c9ok _ h u ((':' :: ':' :: nm.data) ++ b) rfl
    have hvt : (VARIANTS.any fun nm' =>
        beginsWith nm'.data (((':' :: ':' :: nm.data) ++ b).drop 2) &&
          boundaryAt (((':' :: ':' :: nm.data) ++ b).drop (2 + nm'.data.length)))
        = true := by
      refine List.any_eq_true.mpr ⟨nm, hnm, ?_⟩
      have hsh : (':' :: ':' :: nm.data) ++ b = ':' :: ':' :: (nm.data ++ b) := by
        simp
      rw [hsh]
      refine (Bool.and_eq_true _ _).mpr ⟨?_, ?_⟩
      · exact beginsWith_append nm.data b
      · have hdr : (':' :: ':' :: (nm.data ++ b)).drop (2 + nm.data.length) = b := by
          rw [Nat.add_comm, List.drop_succ_cons, List.drop_succ_cons]
          exact List.drop_left nm.data b
        rw [hdr]
        exact hbd
    simp only [c9ok] at hf
    rw [hvt] at hf
    simp at hf
  · obtain ⟨b, hb⟩ := match_rVec hm
    subst hb
    have hf := allOcc_spec c9ok _ h (u ++ ("Vec<").data) ('>' :: b)
      (by simp [List.append_assoc])
    have hbg : beginsWith (("::").data) ('>' :: b) = false := rfl
    simp only [c9ok] at hf
    rw [hbg] at hf
    simp at hf
  · obtain ⟨b, hb⟩ := match_rBox hm
    subst hb
    have hf := allOcc_spec c9ok _ h (u ++ ("Box<").data) ('>' :: b)
      (by simp [List.append_assoc])
    have hbg : beginsWith (("::").data) ('>' :: b) = false := rfl
    simp only [c9ok] at hf
    rw [hbg] at hf
    simp at hf
  · obtain ⟨b, hb⟩ := match_rOptBox hm
    subst hb
    have hf := allOcc_spec c9ok _ h (u ++ ("Option<Box<").data) ('>' :: '>' :: b)
      (by simp [List.append_assoc])
    have hbg : beginsWith (("::").data) ('>' :: '>' :: b) = false := rfl
    simp only [c9ok] at hf
    rw [hbg] at hf
    simp at hf
  · obtain ⟨b, hb⟩ := match_rTuple hm
    subst hb
    have hf := allOcc_spec c9ok _ h (u ++ ['(']) (',' :: b)
      (by simp [List.append_assoc])
    have hbg : beginsWith (("::").data) (',' :: b) = false := rfl
    simp only [c9ok] at hf
    rw [hbg] at hf
    simp at hf
  · obtain ⟨b, hb⟩ := match_rSliceTuple hm
    subst hb
    have hf := allOcc_spec c9ok _ h (u ++ ("&[(").data) (',' :: b)
      (by simp [List.append_assoc])
    have hbg : beginsWith (("::").data) (',' :: b) = false := rfl
    simp only [c9ok] at hf
    rw [hbg] at hf
    simp at hf
  · obtain ⟨w, b, hb, _⟩ := match_rSliceString hm
    subst hb
    have hf := allOcc_spec c9ok _ h ((u ++ ("&[String,").data) ++ w) (']' :: b)
      (by simp [List.append_assoc])
    have hbg : beginsWith (("::").data) (']' :: b) = false := rfl
    simp only [c9ok] at hf
    rw [hbg] at hf
    simp at hf

/-! ## Claim theorems C10, C1 (amended), C9 (amended) -/

/-- Claim C10: on any input with no occurrence of the substring
Expression, the transform is the identity, since every rule pattern
contains that literal substring. -/
theorem c10_no_occurrence_identity (s : List Char) (h : occursExpr s = false) :
    fix_expression_references s = s :=
  fix_id_of_clean s (clean_of_no_occur s h)

/-- Witness for claim C10 at a concrete input without the substring. -/
theorem c10_no_occurrence_identity_witness :
    occursExpr (("let v = Expr::Literal(3) + eval(x);").data) = false ∧
      fix_expression_references (("let v = Expr::Literal(3) + eval(x);").data)
        = ("let v = Expr::Literal(3) + eval(x);").data :=
  ⟨by decide, c10_no_occurrence_identity _ (by decide)⟩

/-- Claim C1, amended: the rules anchor only the right side of the token,
so an occurrence of Expression inside a longer identifier can still be
rewritten when it is a suffix of the identifier immediately followed by
:: and one of the fifteen variant names at a word boundary (e.g.
MyExpression::Literal).  For every input in which each occurrence of
Expression is adjacent to a word character (i.e. occurs only as a proper
substring of a longer identifier) and is not immediately followed by such
a ::variant sequence, the transform leaves the whole text unchanged. -/
theorem c1_amended_boundary (s : List Char) (h : allOcc c1ok s = true) :
    fix_expression_references s = s :=
  fix_id_of_clean s (clean_of_c1ok s h)

/-- Witness for the amended claim C1: a concrete input whose occurrences
of Expression sit inside the longer identifiers MyExpressionKind and
ExpressionBuilder is left unchanged. -/
theorem c1_amended_boundary_witness :
    allOcc c1ok (("let k: MyExpressionKind = ExpressionBuilder;").data) = true ∧
      fix_expression_references
          (("let k: MyExpressionKind = ExpressionBuilder;").data)
        = ("let k: MyExpressionKind = ExpressionBuilder;").data :=
  ⟨by decide, c1_amended_boundary _ (by decide)⟩

/-- Claim C9, amended: the qualified-variant rules cover exactly the
fifteen enumerated names, but other rules can still rewrite a qualified
occurrence when their own context is present (e.g. a preceding &, or one
of the two import-path prefixes).  For every input in which each
occurrence of Expression is followed by :: with a following name that is
not one of the fifteen variant names at a word boundary, and is not
immediately preceded by & or by one of the import-path prefixes, the
transform leaves the text unchanged. -/
theorem c9_amended_variant_coverage (s : List Char) (h : allOcc c9ok s = true) :
    fix_expression_references s = s :=
  fix_id_of_clean s (clean_of_c9ok s h)

/-- Witness for the amended claim C9: a concrete input with the qualified
occurrences Expression::eval and Expression::Add is left unchanged. -/
theorem c9_amended_variant_coverage_witness :
    allOcc c9ok (("Expression::eval Expression::Add").data) = true ∧
      fix_expression_references (("Expression::eval Expression::Add").data)
        = ("Expression::eval Expression::Add").data :=
  ⟨by decide, c9_amended_variant_coverage _ (by decide)⟩

/-! ## Claims about the file walker: C6, C7, C8 -/

theorem batch_step (env : String → FileAccess) :
    ∀ (ps : List String) (n : Nat) (log : List Outcome),
      ps.foldl
        (fun acc p =>
          ((if (process_file (env p)).fixedFlag then acc.1 + 1 else acc.1),
            acc.2 ++ [(process_file (env p)).outcome]))
        (n, log)
      = (n + ps.countP (fun p => (process_file (env p)).fixedFlag),
         log ++ ps.map (fun p => (process_file (env p)).outcome))
  | [], n, log => by simp
  | p :: ps, n, log => by
    simp only [List.foldl_cons, batch_step env ps, List.countP_cons, List.map_cons]
    rw [Prod.mk.injEq]
    constructor
    · by_cases hp : (process_file (env p)).fixedFlag = true
      · simp [hp]
        omega
      · simp [hp]
    · simp

theorem fixedFlag_iff_modified (a : FileAccess) :
    (process_file a).fixedFlag = true ↔ (process_file a).outcome = Outcome.modified := by
  cases a with
  | missing => simp [process_file]
  | readFails => simp [process_file]
  | ok c w =>
    by_cases h : fix_expression_references c = c
    · simp [process_file, h]
    · cases w
      · simp [process_file, h]
      · simp [process_file, h]

/-- Claim C6: a missing file and any read or write failure are absorbed
inside process_file, which returns False (source: the early-return skip
branch and the try/except); the driver loop reaches every path of the
fixed list regardless of earlier outcomes, producing exactly one status
per path in order, and main falls off the end, so the process exit code
is 0.  Read and write exceptions are modelled as explicit FileAccess
outcome values. -/
theorem c6_error_containment (env : String → FileAccess) (c : List Char) :
    process_file FileAccess.missing = ⟨false, Outcome.missing, none⟩
    ∧ process_file FileAccess.readFails = ⟨false, Outcome.ioError, none⟩
    ∧ (process_file (FileAccess.ok c false)).fixedFlag = false
    ∧ (run_batch env).2
        = FILES_TO_FIX.map (fun p => (process_file (env p)).outcome)
    ∧ main_exit_code env = 0 := by
  refine ⟨rfl, rfl, ?_, ?_, rfl⟩
  · by_cases h : fix_expression_references c = c
    · simp [process_file, h]
    · simp [process_file, h]
  · show (FILES_TO_FIX.foldl _ (0, [])).2 = _
    rw [batch_step env FILES_TO_FIX 0 []]
    simp

/-- Claim C7: when the transform output equals the original content,
process_file performs no write (the written component is none), reports
the file unchanged and returns False; when the output differs (and the
write succeeds) it writes exactly the transformed content, reports
modified, and returns True. -/
theorem c7_no_write_when_unchanged (c : List Char) (w : Bool) :
    (fix_expression_references c = c →
      process_file (FileAccess.ok c w) = ⟨false, Outcome.unchanged, none⟩)
    ∧ (fix_expression_references c ≠ c →
      process_file (FileAccess.ok c true)
        = ⟨true, Outcome.modified, some (fix_expression_references c)⟩) := by
  constructor
  · intro h
    simp [process_file, h]
  · intro h
    simp [process_file, h]

/-- Witness for claim C7: a file whose content the transform leaves alone
is not written, and a file with an &Expression reference is written with
the transformed content. -/
theorem c7_no_write_when_unchanged_witness :
    process_file (FileAccess.ok (("fn id(x: i32) -> i32 \x7b x \x7d").data) true)
        = ⟨false, Outcome.unchanged, none⟩
    ∧ process_file (FileAccess.ok (("&Expression;").data) true)
        = ⟨true, Outcome.modified,
            some (fix_expression_references (("&Expression;").data))⟩ :=
  ⟨(c7_no_write_when_unchanged _ true).1 (by decide),
   (c7_no_write_when_unchanged _ true).2 (by decide)⟩

/-- Claim C8: the final summary counter of the driver equals exactly the
number of paths whose outcome was modified, which are exactly the paths
for which process_file returned True; missing, unchanged and error
outcomes contribute nothing. -/
theorem c8_summary_counts_modified (env : String → FileAccess) :
    (run_batch env).1
      = (FILES_TO_FIX.filter
          (fun p => (process_file (env p)).outcome = Outcome.modified)).length := by
  have hfun : (fun p => (process_file (env p)).fixedFlag)
      = (fun p => decide ((process_file (env p)).outcome = Outcome.modified)) := by
    funext p
    rw [Bool.eq_iff_iff]
    simp [fixedFlag_iff_modified]
  show (FILES_TO_FIX.foldl _ (0, [])).1 = _
  rw [batch_step env FILES_TO_FIX 0 []]
  simp only [Nat.zero_add, hfun, List.countP_eq_length_filter]

/-! ## Soundness of the junction checkers -/

theorem diesIn_nil_false : ∀ (p : List RTok), diesIn p [] = false
  | [] => rfl
  | RTok.lit _ :: _ => rfl
  | RTok.ws :: _ => rfl
  | RTok.wb :: _ => rfl

theorem matchPat_lit_eq {c : Char} {p : List RTok} {a : Char} {s r : List Char}
    (h : matchPat (RTok.lit c :: p) (a :: s) = some r) : a = c := by
  by_cases hx : a = c
  · exact hx
  · simp [matchPat, hx] at h

theorem matchPat_ws_skip {q : List RTok} {a : Char} (ha : isSpaceChar a = true)
    (x : List Char) :
    matchPat (RTok.ws :: q) (a :: x) = matchPat (RTok.ws :: q) x := by
  rw [matchPat_ws_cons, matchPat_ws_cons, List.dropWhile_cons, if_pos ha]

theorem matchPat_ws_stop {q : List RTok} {a : Char} (ha : ¬ isSpaceChar a = true)
    (x : List Char) :
    matchPat (RTok.ws :: q) (a :: x) = matchPat q (a :: x) := by
  rw [matchPat_ws_cons, List.dropWhile_cons, if_neg ha]

theorem matchPat_wb_cons_word {q : List RTok} {a : Char} (ha : isWordChar a = true)
    (x : List Char) : matchPat (RTok.wb :: q) (a :: x) = none := by
  simp [matchPat, boundaryAt, ha]

theorem matchPat_wb_cons_nonword {q : List RTok} {a : Char}
    (ha : isWordChar a = false) (x : List Char) :
    matchPat (RTok.wb :: q) (a :: x) = matchPat q (a :: x) := by
  simp [matchPat, boundaryAt, ha]

theorem diesIn_sound :
    ∀ (q : List RTok) (cs w : List Char), diesIn q cs = true →
      matchPat q (cs ++ w) = none
  | [], cs, w, h => by simp [diesIn] at h
  | _ :: _, [], w, h => by simp [diesIn] at h
  | RTok.lit c :: p, a :: cs, w, h => by
    by_cases hac : a = c
    · subst hac
      simp only [diesIn, if_pos rfl] at h
      have := diesIn_sound p cs w h
      simpa [matchPat] using this
    · simp [matchPat, hac]
  | RTok.ws :: p, a :: cs, w, h => by
    simp only [diesIn] at h
    have hne : (a :: cs).dropWhile isSpaceChar ≠ [] := by
      intro hx
      rw [hx, diesIn_nil_false] at h
      exact Bool.false_ne_true h
    rw [matchPat_ws_cons, List.dropWhile_append,
      if_neg (by simpa [List.isEmpty_iff] using hne)]
    exact diesIn_sound p ((a :: cs).dropWhile isSpaceChar) w h
  | RTok.wb :: p, a :: cs, w, h => by
    by_cases hw : isWordChar a = true
    · exact matchPat_wb_cons_word hw _
    · simp only [diesIn, if_neg hw] at h
      rw [List.cons_append,
        matchPat_wb_cons_nonword (Bool.not_eq_true _ ▸ hw) (cs ++ w)]
      have := diesIn_sound p (a :: cs) w h
      simpa using this

theorem consumeAll_sound :
    ∀ (q : List RTok) (cs : List Char) (q' : List RTok),
      consumeAll q cs = some q' → ∀ (w : List Char),
        matchPat q (cs ++ w) = matchPat q' w
  | q, [], q', h, w => by
    simp only [consumeAll, Option.some_inj] at h
    subst h
    rfl
  | [], _ :: _, q', h, w => by simp [consumeAll] at h
  | RTok.lit c :: p, a :: cs, q', h, w => by
    by_cases hac : a = c
    · subst hac
      simp only [consumeAll, if_pos rfl] at h
      have := consumeAll_sound p cs q' h w
      simpa [matchPat] using this
    · simp [consumeAll, hac] at h
  | RTok.ws :: p, a :: cs, q', h, w => by
    simp only [consumeAll] at h
    by_cases hemp : ((a :: cs).dropWhile isSpaceChar).isEmpty = true
    · rw [if_pos hemp, Option.some_inj] at h
      subst h
      rw [matchPat_ws_cons, matchPat_ws_cons, List.dropWhile_append,
        if_pos hemp]
    · rw [if_neg hemp] at h
      rw [matchPat_ws_cons, List.dropWhile_append, if_neg hemp]
      exact consumeAll_sound p ((a :: cs).dropWhile isSpaceChar) q' h w
  | RTok.wb :: p, a :: cs, q', h, w => by
    by_cases hw : isWordChar a = true
    · simp [consumeAll, hw] at h
    · simp only [consumeAll, if_neg hw] at h
      rw [List.cons_append,
        matchPat_wb_cons_nonword (Bool.not_eq_true _ ▸ hw) (cs ++ w)]
      have := consumeAll_sound p (a :: cs) q' h w
      simpa using this

theorem endsWb_boundary :
    ∀ (p : List RTok), endsWb p = true →
      ∀ (s rest : List Char), matchPat p s = some rest → boundaryAt rest = true
  | [], h, _, _, _ => by simp [endsWb] at h
  | [RTok.wb], _, s, rest, hm => by
    by_cases hb : boundaryAt s = true
    · simp only [matchPat, if_pos hb] at hm
      have : s = rest := by simpa [matchPat] using hm
      rw [← this]
      exact hb
    · simp [matchPat, hb] at hm
  | RTok.lit c :: t :: p, h, s, rest, hm => by
    have h' : endsWb (t :: p) = true := h
    cases s with
    | nil => simp [matchPat] at hm
    | cons a s' =>
      by_cases hac : a = c
      · subst hac
        simp only [matchPat, if_pos rfl] at hm
        exact endsWb_boundary (t :: p) h' s' rest hm
      · simp [matchPat, hac] at hm
  | RTok.ws :: t :: p, h, s, rest, hm => by
    have h' : endsWb (t :: p) = true := h
    rw [matchPat_ws_cons] at hm
    exact endsWb_boundary (t :: p) h' _ rest hm
  | RTok.wb :: t :: p, h, s, rest, hm => by
    have h' : endsWb (t :: p) = true := h
    by_cases hb : boundaryAt s = true
    · simp only [matchPat, if_pos hb] at hm
      exact endsWb_boundary (t :: p) h' s rest hm
    · simp [matchPat, hb] at hm
  | [RTok.lit c], h, _, _, _ => by simp [endsWb] at h
  | [RTok.ws], h, _, _, _ => by simp [endsWb] at h

/-! ## Decidable facts about the rule set -/

theorem rules_litHead : rules.all (fun r => litHead r.pat) = true := by decide

theorem rules_repNe : rules.all (fun r => !r.rep.isEmpty) = true := by decide

theorem rules_firstChar : (rules.all fun r =>
    match r.pat, r.rep with
    | RTok.lit c :: _, c' :: _ => c = c'
    | _, _ => false) = true := by decide

theorem rules_shape :
    rules.all (fun r => !(r.pat == [RTok.wb]) && !r.pat.isEmpty) = true := by
  decide

theorem rules_junction : junctionOK = true := by decide

theorem rule_litHead {r : Rule} (hr : r ∈ rules) : litHead r.pat = true :=
  List.all_eq_true.mp rules_litHead r hr

theorem rule_repNe {r : Rule} (hr : r ∈ rules) : r.rep ≠ [] := by
  have := List.all_eq_true.mp rules_repNe r hr
  simpa [List.isEmpty_iff] using this

theorem litHead_shape {p : List RTok} (h : litHead p = true) :
    ∃ c p', p = RTok.lit c :: p' := by
  cases p with
  | nil => simp [litHead] at h
  | cons tok p' =>
    cases tok with
    | lit c => exact ⟨c, p', rfl⟩
    | ws => simp [litHead] at h
    | wb => simp [litHead] at h

theorem rule_first {r : Rule} (hr : r ∈ rules) {c : Char} {p : List RTok}
    (hp : r.pat = RTok.lit c :: p) : r.rep.head? = some c := by
  have hx := List.all_eq_true.mp rules_firstChar r hr
  rw [hp] at hx
  rcases hrep : r.rep with _ | ⟨c', cs⟩
  · rw [hrep] at hx
    simp at hx
  · rw [hrep] at hx
    simp only [decide_eq_true_eq] at hx
    rw [hx]
    rfl

theorem rule_pat_ne_nil {r : Rule} (hr : r ∈ rules) : r.pat ≠ [] := by
  have := List.all_eq_true.mp rules_shape r hr
  rw [Bool.and_eq_true] at this
  simpa [List.isEmpty_iff] using this.2

theorem rule_pat_ne_wb {r : Rule} (hr : r ∈ rules) : r.pat ≠ [RTok.wb] := by
  have := List.all_eq_true.mp rules_shape r hr
  rw [Bool.and_eq_true] at this
  simpa using this.1

theorem junction_tails {rj q : Rule} (hj : rj ∈ rules) (hq : q ∈ rules)
    {q' : List RTok} (hmem : q' ∈ q.pat.tails) : jcheck q' rj.rep rj = true := by
  have h1 := List.all_eq_true.mp rules_junction rj hj
  rw [Bool.and_eq_true] at h1
  have h2 := List.all_eq_true.mp h1.1 q hq
  exact List.all_eq_true.mp h2 q' hmem

theorem junction_offsets {rj q : Rule} (hj : rj ∈ rules) (hq : q ∈ rules)
    {k : Nat} (hk : k < rj.rep.length) : jcheck q.pat (rj.rep.drop k) rj = true := by
  have h1 := List.all_eq_true.mp rules_junction rj hj
  rw [Bool.and_eq_true] at h1
  have h2 := List.all_eq_true.mp h1.2 q hq
  exact List.all_eq_true.mp h2 k (List.mem_range.mpr hk)

theorem jcheck_elim {q : List RTok} {cs : List Char} {r : Rule}
    (h : jcheck q cs r = true) :
    diesIn q cs = true ∨ q = [] ∨ q = [RTok.wb] ∨
      ∃ c q'', consumeAll q cs = some (RTok.lit c :: q'') ∧ isWordChar c = true ∧
        r.rep.head? ≠ some c ∧ endsWb r.pat = true := by
  simp only [jcheck, Bool.or_eq_true] at h
  rcases h with ((h | h) | h) | h
  · exact Or.inl h
  · exact Or.inr (Or.inl (by simpa [List.isEmpty_iff] using h))
  · exact Or.inr (Or.inr (Or.inl (by simpa using h)))
  · rcases hca : consumeAll q cs with _ | q₁
    · rw [hca] at h
      simp at h
    · rcases q₁ with _ | ⟨tok, q''⟩
      · rw [hca] at h
        simp at h
      · cases tok with
        | lit c =>
          rw [hca] at h
          rw [Bool.and_eq_true, Bool.and_eq_true] at h
          refine Or.inr (Or.inr (Or.inr ⟨c, q'', rfl, h.1.1, ?_, h.2⟩))
          have := h.1.2
          simp at this
          simpa using this
        | ws =>
          rw [hca] at h
          simp at h
        | wb =>
          rw [hca] at h
          simp at h

/-! ## The head of a substitution output -/

theorem subst_head (p : List RTok) (hp : litHead p = true) (rep : List Char)
    (hrep : rep ≠ []) (s : List Char) :
    subst p rep s = [] ∨ (subst p rep s).head? = s.head? ∨
      (subst p rep s).head? = rep.head? := by
  cases s with
  | nil => exact Or.inl (subst_nil p rep)
  | cons a s₀ =>
    cases hm : matchPat p (a :: s₀) with
    | some rest =>
      rw [subst_match hp rep hm]
      rcases hrepc : rep with _ | ⟨c, cs⟩
      · exact absurd hrepc hrep
      · exact Or.inr (Or.inr rfl)
    | none =>
      rw [subst_nomatch p rep hm]
      exact Or.inr (Or.inl rfl)

theorem danger_head {p : List RTok} (hp : litHead p = true) {rep : List Char}
    (hrep : rep ≠ []) {rest : List Char} (hb : boundaryAt rest = true)
    {c : Char} (hcw : isWordChar c = true) (hne : rep.head? ≠ some c)
    {q : List RTok} {x : List Char}
    (h : matchPat (RTok.lit c :: q) (subst p rep rest) = some x) : False := by
  rcases hsub : subst p rep rest with _ | ⟨d, y⟩
  · rw [hsub] at h
    simp [matchPat] at h
  · rw [hsub] at h
    have hdc : d = c := matchPat_lit_eq h
    subst hdc
    rcases subst_head p hp rep hrep rest with h0 | h0 | h0
    · rw [h0] at hsub
      simp at hsub
    · rw [hsub] at h0
      cases hrest : rest with
      | nil =>
        rw [hrest] at h0
        simp at h0
      | cons e z =>
        rw [hrest] at h0 hb
        have hde : d = e := by simpa using h0
        simp only [boundaryAt, Bool.not_eq_true'] at hb
        rw [← hde] at hb
        rw [hcw] at hb
        exact (Bool.true_eq_false.mp hb).elim
    · rw [hsub] at h0
      exact hne (by rw [← h0]; rfl)

/-! ## A match in a substituted text was already there

The central junction lemma: a match of any residual pattern of the rule
set at the head of the output of one substitution yields a match at the
head of its input.  A match cannot start inside a freshly inserted
replacement: by the decidable junction table it either dies on the
concrete replacement characters, or it would need a word character right
after the replaced segment, which the trailing word boundary of the
matched pattern rules out. -/

theorem match_preserved_fuel (rj : Rule) (hj : rj ∈ rules) :
    ∀ (n : Nat) (t : List Char) (q' : List RTok),
      t.length + q'.length ≤ n →
      (∃ q ∈ rules, q' <:+ q.pat) →
      (matchPat q' (subst rj.pat rj.rep t)).isSome = true →
      (matchPat q' t).isSome = true := by
  intro n
  induction n with
  | zero =>
    intro t q' hn _ h
    have ht : t = [] := by
      cases t with
      | nil => rfl
      | cons a t₀ => simp at hn
    subst ht
    rw [subst_nil] at h
    exact h
  | succ n ih =>
    intro t q' hn hg h
    cases t with
    | nil =>
      rw [subst_nil] at h
      exact h
    | cons a t₀ =>
      have hlit : litHead rj.pat = true := rule_litHead hj
      cases hm : matchPat rj.pat (a :: t₀) with
      | some rest =>
        rw [subst_match hlit rj.rep hm] at h
        have hjk : jcheck q' rj.rep rj = true := by
          obtain ⟨q, hq, hsuf⟩ := hg
          exact junction_tails hj hq ((List.mem_tails q' q.pat).mpr hsuf)
        rcases jcheck_elim hjk with hdi | rfl | rfl | ⟨c, q'', hca, hcw, hne, hwb⟩
        · rw [diesIn_sound q' rj.rep _ hdi] at h
          simp at h
        · simp [matchPat]
        · obtain ⟨c, p'', hpat⟩ := litHead_shape hlit
          have hrc : rj.rep.head? = some c := rule_first hj hpat
          have hac : a = c := by
            rw [hpat] at hm
            exact matchPat_lit_eq hm
          have hbound : boundaryAt (rj.rep ++ subst rj.pat rj.rep rest) = true := by
            by_cases hbb : boundaryAt (rj.rep ++ subst rj.pat rj.rep rest) = true
            · exact hbb
            · simp [matchPat, hbb] at h
          rcases hrep : rj.rep with _ | ⟨c₀, csr⟩
          · exact absurd hrep (rule_repNe hj)
          · rw [hrep] at hbound hrc
            have hc₀ : c₀ = c := by simpa using hrc
            rw [List.cons_append] at hbound
            simp only [boundaryAt, Bool.not_eq_true'] at hbound
            have hbt : boundaryAt (a :: t₀) = true := by
              rw [hac, ← hc₀]
              simp [boundaryAt, hbound]
            simp [matchPat, hbt]
        · rw [consumeAll_sound q' rj.rep _ hca] at h
          have hbrest : boundaryAt rest = true := endsWb_boundary rj.pat hwb _ _ hm
          rw [Option.isSome_iff_exists] at h
          obtain ⟨x, hx⟩ := h
          exact (danger_head hlit (rule_repNe hj) hbrest hcw hne hx).elim
      | none =>
        rw [subst_nomatch rj.pat rj.rep hm] at h
        cases q' with
        | nil => simp [matchPat]
        | cons tok q'' =>
          have hg'' : ∃ q ∈ rules, q'' <:+ q.pat := by
            obtain ⟨q, hq, hsuf⟩ := hg
            exact ⟨q, hq, (List.suffix_cons tok q'').trans hsuf⟩
          cases tok with
          | lit c =>
            by_cases hac : a = c
            · subst hac
              have hred : matchPat (RTok.lit a :: q'') (a :: subst rj.pat rj.rep t₀)
                  = matchPat q'' (subst rj.pat rj.rep t₀) := by
                simp [matchPat]
              rw [hred] at h
              have hn' : t₀.length + q''.length ≤ n := by
                simp at hn
                omega
              have hrec := ih t₀ q'' hn' hg'' h
              have hred2 : matchPat (RTok.lit a :: q'') (a :: t₀)
                  = matchPat q'' t₀ := by
                simp [matchPat]
              rw [hred2]
              exact hrec
            · have hnone : matchPat (RTok.lit c :: q'')
                  (a :: subst rj.pat rj.rep t₀) = none := by
                simp [matchPat, hac]
              rw [hnone] at h
              simp at h
          | ws =>
            by_cases hsp : isSpaceChar a = true
            · rw [matchPat_ws_skip hsp] at h
              have hn' : t₀.length + (RTok.ws :: q'').length ≤ n := by
                simp at hn ⊢
                omega
              have hrec := ih t₀ (RTok.ws :: q'') hn' hg h
              rw [matchPat_ws_skip hsp]
              exact hrec
            · rw [matchPat_ws_stop hsp] at h
              have hn' : (a :: t₀).length + q''.length ≤ n := by
                simp at hn ⊢
                omega
              have hrec := ih (a :: t₀) q'' hn' hg''
                (by rw [subst_nomatch rj.pat rj.rep hm]; exact h)
              rw [matchPat_ws_stop hsp]
              exact hrec
          | wb =>
            by_cases hw : isWordChar a = true
            · rw [matchPat_wb_cons_word hw] at h
              simp at h
            · have hw' : isWordChar a = false := by simpa using hw
              rw [matchPat_wb_cons_nonword hw'] at h
              have hn' : (a :: t₀).length + q''.length ≤ n := by
                simp at hn ⊢
                omega
              have hrec := ih (a :: t₀) q'' hn' hg''
                (by rw [subst_nomatch rj.pat rj.rep hm]; exact h)
              rw [matchPat_wb_cons_nonword hw']
              exact hrec

theorem match_preserved (rj : Rule) (hj : rj ∈ rules) (t : List Char)
    (q' : List RTok) (hg : ∃ q ∈ rules, q' <:+ q.pat)
    (h : (matchPat q' (subst rj.pat rj.rep t)).isSome = true) :
    (matchPat q' t).isSome = true :=
  match_preserved_fuel rj hj (t.length + q'.length) t q' (Nat.le_refl _) hg h

/-! ## Scanning the whole replacement for matches -/

theorem hasMatch_append_elim (q : List RTok) :
    ∀ (u w : List Char), hasMatch q (u ++ w) = true →
      (∃ k, k < u.length ∧ (matchPat q (u.drop k ++ w)).isSome = true) ∨
        hasMatch q w = true
  | [], _, h => Or.inr h
  | a :: u, w, h => by
    rw [List.cons_append, hasMatch_cons, Bool.or_eq_true] at h
    rcases h with h1 | h2
    · exact Or.inl ⟨0, by simp, by simpa using h1⟩
    · rcases hasMatch_append_elim q u w h2 with ⟨k, hk, hmk⟩ | hw
      · exact Or.inl ⟨k + 1, by simpa using Nat.succ_lt_succ hk, by simpa using hmk⟩
      · exact Or.inr hw

theorem hasMatch_append_of_right (q : List RTok) (u : List Char) {v : List Char}
    (h : hasMatch q v = true) : hasMatch q (u ++ v) = true := by
  induction u with
  | nil => exact h
  | cons a u ih => rw [List.cons_append, hasMatch_cons, ih, Bool.or_true]

/-- After a rule has been applied, its own pattern no longer matches
anywhere in the text. -/
theorem self_clear_fuel (rj : Rule) (hj : rj ∈ rules) :
    ∀ (n : Nat) (t : List Char), t.length ≤ n →
      hasMatch rj.pat (subst rj.pat rj.rep t) = false := by
  intro n
  induction n with
  | zero =>
    intro t hn
    have ht : t = [] := by
      cases t with
      | nil => rfl
      | cons a t₀ => simp at hn
    subst ht
    rw [subst_nil]
    obtain ⟨c, p', hpat⟩ := litHead_shape (rule_litHead hj)
    rw [hasMatch_nil, hpat]
    rfl
  | succ n ih =>
    intro t hn
    cases t with
    | nil =>
      rw [subst_nil]
      obtain ⟨c, p', hpat⟩ := litHead_shape (rule_litHead hj)
      rw [hasMatch_nil, hpat]
      rfl
    | cons a t₀ =>
      cases hm : matchPat rj.pat (a :: t₀) with
      | some rest =>
        rw [subst_match (rule_litHead hj) rj.rep hm]
        by_contra hx
        rw [Bool.not_eq_false] at hx
        rcases hasMatch_append_elim rj.pat rj.rep _ hx with ⟨k, hk, hmk⟩ | hw
        · rcases jcheck_elim (junction_offsets hj hj hk) with
            hdi | hnil | hwbq | ⟨c, q'', hca, hcw, hne, hwb⟩
          · rw [diesIn_sound _ _ _ hdi] at hmk
            simp at hmk
          · exact rule_pat_ne_nil hj hnil
          · exact rule_pat_ne_wb hj hwbq
          · rw [consumeAll_sound _ _ _ hca] at hmk
            have hbrest := endsWb_boundary rj.pat hwb _ _ hm
            rw [Option.isSome_iff_exists] at hmk
            obtain ⟨x, hxx⟩ := hmk
            exact danger_head (rule_litHead hj) (rule_repNe hj) hbrest hcw hne hxx
        · have hrn : rest.length ≤ n := by
            have := matchPat_litHead_lt (rule_litHead hj) hm
            simp at this hn
            omega
          rw [ih rest hrn] at hw
          exact Bool.false_ne_true hw
      | none =>
        rw [subst_nomatch rj.pat rj.rep hm, hasMatch_cons]
        have h1 : (matchPat rj.pat (a :: subst rj.pat rj.rep t₀)).isSome = false := by
          by_contra hx
          rw [Bool.not_eq_false] at hx
          have hp := match_preserved rj hj (a :: t₀) rj.pat
            ⟨rj, hj, List.suffix_refl _⟩
            (by rw [subst_nomatch rj.pat rj.rep hm]; exact hx)
          rw [hm] at hp
          simp at hp
        have h2 : hasMatch rj.pat (subst rj.pat rj.rep t₀) = false :=
          ih t₀ (by simp at hn; omega)
        rw [h1, h2]
        rfl

theorem self_clear (rj : Rule) (hj : rj ∈ rules) (t : List Char) :
    hasMatch rj.pat (subst rj.pat rj.rep t) = false :=
  self_clear_fuel rj hj t.length t (Nat.le_refl _)

/-- Applying one rule of the set cannot create a match for any rule of
the set that did not match before. -/
theorem hasMatch_preserved_fuel (rj : Rule) (hj : rj ∈ rules) (q : Rule)
    (hq : q ∈ rules) :
    ∀ (n : Nat) (t : List Char), t.length ≤ n →
      hasMatch q.pat (subst rj.pat rj.rep t) = true → hasMatch q.pat t = true := by
  intro n
  induction n with
  | zero =>
    intro t hn h
    have ht : t = [] := by
      cases t with
      | nil => rfl
      | cons a t₀ => simp at hn
    subst ht
    rw [subst_nil] at h
    exact h
  | succ n ih =>
    intro t hn h
    cases t with
    | nil =>
      rw [subst_nil] at h
      exact h
    | cons a t₀ =>
      cases hm : matchPat rj.pat (a :: t₀) with
      | some rest =>
        rw [subst_match (rule_litHead hj) rj.rep hm] at h
        rcases hasMatch_append_elim q.pat rj.rep _ h with ⟨k, hk, hmk⟩ | hw
        · rcases jcheck_elim (junction_offsets hj hq hk) with
            hdi | hnil | hwbq | ⟨c, q'', hca, hcw, hne, hwb⟩
          · rw [diesIn_sound _ _ _ hdi] at hmk
            simp at hmk
          · exact absurd hnil (rule_pat_ne_nil hq)
          · exact absurd hwbq (rule_pat_ne_wb hq)
          · rw [consumeAll_sound _ _ _ hca] at hmk
            have hbrest := endsWb_boundary rj.pat hwb _ _ hm
            rw [Option.isSome_iff_exists] at hmk
            obtain ⟨x, hxx⟩ := hmk
            exact (danger_head (rule_litHead hj) (rule_repNe hj) hbrest hcw hne
              hxx).elim
        · have hrn : rest.length ≤ n := by
            have := matchPat_litHead_lt (rule_litHead hj) hm
            simp at this hn
            omega
          have hsub := ih rest hrn hw
          obtain ⟨u, hu⟩ := matchPat_eq_drop rj.pat (a :: t₀) rest hm
          rw [hu]
          exact hasMatch_append_of_right q.pat u hsub
      | none =>
        rw [subst_nomatch rj.pat rj.rep hm] at h
        rw [hasMatch_cons] at h ⊢
        rw [Bool.or_eq_true] at h
        rcases h with h1 | h2
        · have hp := match_preserved rj hj (a :: t₀) q.pat
            ⟨q, hq, List.suffix_refl _⟩
            (by rw [subst_nomatch rj.pat rj.rep hm]; exact h1)
          rw [hp]
          rfl
        · rw [ih t₀ (by simp at hn; omega) h2]
          simp

theorem hasMatch_preserved (rj : Rule) (hj : rj ∈ rules) (q : Rule)
    (hq : q ∈ rules) (t : List Char)
    (h : hasMatch q.pat (subst rj.pat rj.rep t) = true) :
    hasMatch q.pat t = true :=
  hasMatch_preserved_fuel rj hj q hq t.length t (Nat.le_refl _) h

/-! ## After the whole pass, no rule matches -/

theorem clean_after :
    ∀ (todo : List Rule), (∀ r ∈ todo, r ∈ rules) →
      ∀ (s : List Char) (done : List Rule), (∀ r ∈ done, r ∈ rules) →
        (∀ r ∈ done, hasMatch r.pat s = false) →
        ∀ r', r' ∈ done ∨ r' ∈ todo →
          hasMatch r'.pat (todo.foldl (fun t r => subst r.pat r.rep t) s) = false
  | [], _, s, done, _, hclean, r', hr' => by
    rcases hr' with hd | ht
    · exact hclean r' hd
    · simp at ht
  | rr :: todo, htodo, s, done, hdone, hclean, r', hr' => by
    have hrr : rr ∈ rules := htodo rr (List.mem_cons_self rr todo)
    have hclean' : ∀ r ∈ done ++ [rr],
        hasMatch r.pat (subst rr.pat rr.rep s) = false := by
      intro r hrm
      rcases List.mem_append.mp hrm with hd | hsng
      · by_contra hx
        rw [Bool.not_eq_false] at hx
        have := hasMatch_preserved rr hrr r (hdone r hd) s hx
        rw [hclean r hd] at this
        exact Bool.false_ne_true this
      · have hre : r = rr := by simpa using hsng
        subst hre
        exact self_clear r hrr s
    have hdone' : ∀ r ∈ done ++ [rr], r ∈ rules := by
      intro r hrm
      rcases List.mem_append.mp hrm with hd | hsng
      · exact hdone r hd
      · have hre : r = rr := by simpa using hsng
        subst hre
        exact hrr
    have hmem' : r' ∈ done ++ [rr] ∨ r' ∈ todo := by
      rcases hr' with hd | ht
      · exact Or.inl (List.mem_append.mpr (Or.inl hd))
      · rcases List.mem_cons.mp ht with rfl | h2
        · exact Or.inl (List.mem_append.mpr (Or.inr (List.mem_singleton.mpr rfl)))
        · exact Or.inr h2
    have := clean_after todo (fun r hx => htodo r (List.mem_cons_of_mem rr hx))
      (subst rr.pat rr.rep s) (done ++ [rr]) hdone' hclean' r' hmem'
    rw [List.foldl_cons]
    exact this

theorem fix_clean (s : List Char) :
    ∀ r ∈ rules, hasMatch r.pat (fix_expression_references s) = false := by
  intro r hr
  exact clean_after rules (fun _ hx => hx) s []
    (by intro r hx; simp at hx) (by intro r hx; simp at hx) r (Or.inr hr)

/-- Claim C2: the transform is idempotent.  After one pass no rule
pattern matches anywhere in the output (each rule clears its own pattern,
and by the junction analysis no later rule can re-create a match of an
earlier one), so the second pass is the identity. -/
theorem c2_transform_idempotent (s : List Char) :
    fix_expression_references (fix_expression_references s)
      = fix_expression_references s :=
  fix_id_of_clean _ (fix_clean s)

end FixExpr
